import Mathlib

/-!
Verification of the voting-period core of the LANCER Bloodmoney Merc Board
repository.

The development shallowly embeds:

* the voting-periods repository layer (`readVotingPeriods` / `writeVotingPeriods`
  from the integration-test file, which mimic `server.js`): the on-disk file is
  modelled as `Option String` (`none` = missing/unreadable file), and the host's
  `JSON.parse` / `JSON.stringify(·, null, 2)` builtins are modelled by an
  executable JSON parser and pretty-printer over an inductive `Json` type
  (JSON numbers are modelled as integers; fractional literals are outside the
  data handled by this subsystem);
* `isSafeEmblemFilename` from `helpers.js`, together with POSIX `path.basename`
  and the `SAFE_EMBLEM_PATTERN` regular expression, over `List Char`;
* the voting-period validators (`validateVotingPeriodState`, `validateEndTime`,
  `validateJobVotes`, `validateVotingPeriodData`, `getOngoingVotingPeriod`),
  which are called by the repository's test files but whose defining module is
  not part of the available sources; these are modelled from the spec.
-/

/-! ## JSON values -/

/-- JSON values. Objects keep their fields as an ordered association list,
matching the insertion/serialization order of JavaScript objects. Numbers are
modelled as integers. -/
inductive Json : Type where
  | null : Json
  | bool : Bool → Json
  | num : Int → Json
  | str : String → Json
  | arr : List Json → Json
  | obj : List (String × Json) → Json
deriving Repr

/-! ## JSON parsing (model of the host's JSON.parse) -/

/-- JSON insignificant whitespace characters. -/
def isWsChar (c : Char) : Bool :=
  c = ' ' || c = '\n' || c = '\t' || c = '\r'

/-- Skip insignificant whitespace. -/
def skipWs (cs : List Char) : List Char :=
  cs.dropWhile isWsChar

/-- Value of a hexadecimal digit character. -/
def hexVal (c : Char) : Option Nat :=
  if c.isDigit then some (c.toNat - 48)
  else if 'a' ≤ c && c ≤ 'f' then some (c.toNat - 87)
  else if 'A' ≤ c && c ≤ 'F' then some (c.toNat - 55)
  else none

/-- Resolve a single-character JSON string escape. -/
def unescChar (e : Char) : Option Char :=
  if e = '"' then some '"'
  else if e = '\\' then some '\\'
  else if e = '/' then some '/'
  else if e = 'b' then some (Char.ofNat 8)
  else if e = 'f' then some (Char.ofNat 12)
  else if e = 'n' then some '\n'
  else if e = 'r' then some '\r'
  else if e = 't' then some '\t'
  else none

/-- Parse the body of a JSON string literal (the opening quote has already been
consumed); returns the decoded characters and the input after the closing
quote. -/
def parseStringBody (cs : List Char) : Option (List Char × List Char) :=
  match cs with
  | [] => none
  | c :: rest =>
    if c = '"' then some ([], rest)
    else if c = '\\' then
      match rest with
      | [] => none
      | e :: rest2 =>
        if e = 'u' then
          match rest2 with
          | h1 :: h2 :: h3 :: h4 :: rest3 =>
            match hexVal h1, hexVal h2, hexVal h3, hexVal h4 with
            | some a, some b, some d, some e2 =>
              (parseStringBody rest3).map
                (fun p => (Char.ofNat (((a * 16 + b) * 16 + d) * 16 + e2) :: p.1, p.2))
            | _, _, _, _ => none
          | _ => none
        else
          match unescChar e with
          | some u => (parseStringBody rest2).map (fun p => (u :: p.1, p.2))
          | none => none
    else if c.toNat < 32 then none
    else (parseStringBody rest).map (fun p => (c :: p.1, p.2))

/-- Numeric value of a list of decimal digit characters. -/
def digitsVal (ds : List Char) : Nat :=
  ds.foldl (fun a c => 10 * a + (c.toNat - 48)) 0

/-- Parse a maximal run of decimal digits (rejecting leading zeros, as JSON
does). -/
def parseDigits (cs : List Char) : Option (Nat × List Char) :=
  match cs.takeWhile Char.isDigit with
  | [] => none
  | d :: ds =>
    if d = '0' && ds ≠ [] then none
    else some (digitsVal (d :: ds), cs.dropWhile Char.isDigit)

mutual

/-- Parse a JSON value (fuel-indexed recursive-descent parser). -/
def parseVal : Nat → List Char → Option (Json × List Char)
  | 0, _ => none
  | fuel + 1, cs =>
    match skipWs cs with
    | [] => none
    | c :: rest =>
      if c = 'n' then
        match rest with
        | 'u' :: 'l' :: 'l' :: rest2 => some (.null, rest2)
        | _ => none
      else if c = 't' then
        match rest with
        | 'r' :: 'u' :: 'e' :: rest2 => some (.bool true, rest2)
        | _ => none
      else if c = 'f' then
        match rest with
        | 'a' :: 'l' :: 's' :: 'e' :: rest2 => some (.bool false, rest2)
        | _ => none
      else if c = '"' then
        (parseStringBody rest).map (fun p => (.str ⟨p.1⟩, p.2))
      else if c = '[' then
        match skipWs rest with
        | [] => none
        | c2 :: rest2 =>
          if c2 = ']' then some (.arr [], rest2)
          else (parseItems fuel (c2 :: rest2)).map (fun p => (.arr p.1, p.2))
      else if c = '\x7b' then
        match skipWs rest with
        | [] => none
        | c2 :: rest2 =>
          if c2 = '\x7d' then some (.obj [], rest2)
          else (parseFields fuel (c2 :: rest2)).map (fun p => (.obj p.1, p.2))
      else if c = '-' then
        (parseDigits rest).map (fun p => (.num (-(p.1 : Int)), p.2))
      else if c.isDigit then
        (parseDigits (c :: rest)).map (fun p => (.num (p.1 : Int), p.2))
      else none

/-- Parse the comma-separated elements of a non-empty JSON array, up to and
including the closing bracket. -/
def parseItems : Nat → List Char → Option (List Json × List Char)
  | 0, _ => none
  | fuel + 1, cs => do
    let (v, r) ← parseVal fuel cs
    match skipWs r with
    | [] => none
    | c :: r2 =>
      if c = ',' then (parseItems fuel r2).map (fun p => (v :: p.1, p.2))
      else if c = ']' then some ([v], r2)
      else none

/-- Parse the comma-separated members of a non-empty JSON object, up to and
including the closing brace. -/
def parseFields : Nat → List Char → Option (List (String × Json) × List Char)
  | 0, _ => none
  | fuel + 1, cs =>
    match skipWs cs with
    | [] => none
    | c :: r =>
      if c = '"' then do
        let (k, r2) ← parseStringBody r
        match skipWs r2 with
        | [] => none
        | c2 :: r3 =>
          if c2 = ':' then do
            let (v, r4) ← parseVal fuel r3
            match skipWs r4 with
            | [] => none
            | c3 :: r5 =>
              if c3 = ',' then (parseFields fuel r5).map (fun p => ((⟨k⟩, v) :: p.1, p.2))
              else if c3 = '\x7d' then some ([(⟨k⟩, v)], r5)
              else none
          else none
      else none

end

/-- Model of the host's `JSON.parse`: parse a complete JSON document, requiring
only trailing whitespace after the value; `none` models a thrown SyntaxError.
The fuel `2 * length + 2` is sufficient for any input (the parser consumes at
least one character every two recursive steps). -/
def jsonParse (s : String) : Option Json :=
  match parseVal (2 * s.data.length + 2) s.data with
  | some (j, rest) => if skipWs rest = [] then some j else none
  | none => none

/-! ## JSON serialization (model of the host's JSON.stringify(v, null, 2)) -/

/-- Lower-case hexadecimal digit character. -/
def hexDigChar (n : Nat) : Char :=
  match n with
  | 0 => '0' | 1 => '1' | 2 => '2' | 3 => '3' | 4 => '4'
  | 5 => '5' | 6 => '6' | 7 => '7' | 8 => '8' | 9 => '9'
  | 10 => 'a' | 11 => 'b' | 12 => 'c' | 13 => 'd' | 14 => 'e' | 15 => 'f'
  | _ => '0'

/-- Decimal digit character. -/
def digitChar (n : Nat) : Char := hexDigChar (n % 10)

/-- Escape one character as inside a JSON string literal, following
`JSON.stringify`: quote, backslash and the named control characters get
two-character escapes, other control characters get a `\u00XX` escape, and
everything else is emitted verbatim. -/
def escapeChar (c : Char) : List Char :=
  if c = '"' then ['\\', '"']
  else if c = '\\' then ['\\', '\\']
  else if c = '\n' then ['\\', 'n']
  else if c = '\t' then ['\\', 't']
  else if c = '\r' then ['\\', 'r']
  else if c = Char.ofNat 8 then ['\\', 'b']
  else if c = Char.ofNat 12 then ['\\', 'f']
  else if c.toNat < 32 then
    ['\\', 'u', '0', '0', hexDigChar (c.toNat / 16), hexDigChar (c.toNat % 16)]
  else [c]

/-- Escape a whole string body. -/
def escapeList (cs : List Char) : List Char :=
  cs.flatMap escapeChar

/-- Decimal digits of a natural number (fuel-indexed; `natDigits` supplies
adequate fuel). -/
def natDigitsAux : Nat → Nat → List Char
  | 0, _ => []
  | fuel + 1, n =>
    if n < 10 then [digitChar n]
    else natDigitsAux fuel (n / 10) ++ [digitChar (n % 10)]

/-- Decimal digits of a natural number, most significant first. -/
def natDigits (n : Nat) : List Char := natDigitsAux (n + 1) n

/-- Decimal representation of an integer. -/
def printInt (n : Int) : List Char :=
  if n < 0 then '-' :: natDigits n.natAbs else natDigits n.toNat

/-- Indentation. -/
def spaces (n : Nat) : List Char := List.replicate n ' '

mutual

/-- Pretty-print a JSON value at indentation `ind`, matching
`JSON.stringify(v, null, 2)`. -/
def printVal (ind : Nat) : Json → List Char
  | .null => "null".data
  | .bool true => "true".data
  | .bool false => "false".data
  | .num n => printInt n
  | .str s => '"' :: escapeList s.data ++ ['"']
  | .arr [] => ['[', ']']
  | .arr (x :: xs) =>
    '[' :: '\n' :: spaces (ind + 2) ++ printElems (ind + 2) (x :: xs) ++
      '\n' :: spaces ind ++ [']']
  | .obj [] => ['\x7b', '\x7d']
  | .obj (f :: fs) =>
    '\x7b' :: '\n' :: spaces (ind + 2) ++ printFields (ind + 2) (f :: fs) ++
      '\n' :: spaces ind ++ ['\x7d']

/-- Pretty-print array elements, separated by a comma, newline and
indentation. -/
def printElems (ind : Nat) : List Json → List Char
  | [] => []
  | [x] => printVal ind x
  | x :: y :: xs =>
    printVal ind x ++ ',' :: '\n' :: spaces ind ++ printElems ind (y :: xs)

/-- Pretty-print object members, separated by a comma, newline and
indentation. -/
def printFields (ind : Nat) : List (String × Json) → List Char
  | [] => []
  | [(k, v)] => '"' :: escapeList k.data ++ '"' :: ':' :: ' ' :: printVal ind v
  | (k, v) :: g :: fs =>
    ('"' :: escapeList k.data ++ '"' :: ':' :: ' ' :: printVal ind v) ++
      ',' :: '\n' :: spaces ind ++ printFields ind (g :: fs)

end

/-- Model of the host's `JSON.stringify(v, null, 2)`. -/
def jsonStringify (j : Json) : String := ⟨printVal 0 j⟩

/-! ## The voting-periods repository layer

The backing file `data/voting-periods.json` is modelled as `Option String`:
`none` when the file is missing (so `fs.readFileSync` throws), `some s` when it
holds the text `s`. -/

/-- Default empty shape returned by the repository read on any failure. -/
def emptyVotingPeriods : Json := Json.obj [("periods", Json.arr [])]

/-- Read the voting-periods document: load the file and parse it, returning the
default empty shape on any failure (missing file or malformed JSON), exactly as
the `try/catch` in `readVotingPeriods` does. The function is total: no error is
signalled. -/
def readVotingPeriods (file : Option String) : Json :=
  match file with
  | none => emptyVotingPeriods
  | some data =>
    match jsonParse data with
    | some parsed => parsed
    | none => emptyVotingPeriods

/-- Write the voting-periods document: serialize with
`JSON.stringify(votingPeriodsData, null, 2)` and replace the file's entire
contents. -/
def writeVotingPeriods (votingPeriodsData : Json) : Option String :=
  some (jsonStringify votingPeriodsData)

/-! ## Whitespace lemmas -/

theorem skipWs_cons_not (c : Char) (l : List Char) (h : isWsChar c = false) :
    skipWs (c :: l) = c :: l := by
  simp [skipWs, List.dropWhile_cons_of_neg, h]

theorem skipWs_append_ws (a b : List Char) (h : ∀ c ∈ a, isWsChar c = true) :
    skipWs (a ++ b) = skipWs b := by
  induction a with
  | nil => simp
  | cons c cs ih =>
    have hc : isWsChar c = true := h c (by simp)
    simp only [List.cons_append, skipWs, List.dropWhile_cons_of_pos hc]
    exact ih fun x hx => h x (by simp [hx])

theorem spaces_ws (n : Nat) : ∀ c ∈ spaces n, isWsChar c = true := by
  intro c hc
  have : c = ' ' := List.eq_of_mem_replicate hc
  subst this
  decide

/-! ## String-literal round trip -/

theorem hexVal_hexDigChar : ∀ n, n < 16 → hexVal (hexDigChar n) = some n := by decide

theorem parseStringBody_escape (s rest : List Char) :
    parseStringBody (escapeList s ++ '"' :: rest) = some (s, rest) := by
  induction s with
  | nil =>
    rw [(by simp [escapeList] : escapeList [] ++ '"' :: rest = '"' :: rest),
      parseStringBody.eq_def]
    simp
  | cons c cs ih =>
    rw [(by simp [escapeList] : escapeList (c :: cs) ++ '"' :: rest
      = escapeChar c ++ (escapeList cs ++ '"' :: rest))]
    by_cases h1 : c = '"'
    · subst h1
      rw [(by simp [escapeChar] : escapeChar '"' ++ (escapeList cs ++ '"' :: rest)
        = '\\' :: '"' :: (escapeList cs ++ '"' :: rest)), parseStringBody.eq_def]
      simp [unescChar, ih]
    · by_cases h2 : c = '\\'
      · subst h2
        rw [(by simp [escapeChar] : escapeChar '\\' ++ (escapeList cs ++ '"' :: rest)
          = '\\' :: '\\' :: (escapeList cs ++ '"' :: rest)), parseStringBody.eq_def]
        simp [unescChar, ih]
      · by_cases h3 : c = '\n'
        · subst h3
          rw [(by simp [escapeChar] : escapeChar '\n' ++ (escapeList cs ++ '"' :: rest)
            = '\\' :: 'n' :: (escapeList cs ++ '"' :: rest)), parseStringBody.eq_def]
          simp [unescChar, ih]
        · by_cases h4 : c = '\t'
          · subst h4
            rw [(by simp [escapeChar] : escapeChar '\t' ++ (escapeList cs ++ '"' :: rest)
              = '\\' :: 't' :: (escapeList cs ++ '"' :: rest)), parseStringBody.eq_def]
            simp [unescChar, ih]
          · by_cases h5 : c = '\r'
            · subst h5
              rw [(by simp [escapeChar] : escapeChar '\r' ++ (escapeList cs ++ '"' :: rest)
                = '\\' :: 'r' :: (escapeList cs ++ '"' :: rest)), parseStringBody.eq_def]
              simp [unescChar, ih]
            · by_cases h6 : c = Char.ofNat 8
              · subst h6
                rw [(by simp [escapeChar] :
                  escapeChar (Char.ofNat 8) ++ (escapeList cs ++ '"' :: rest)
                  = '\\' :: 'b' :: (escapeList cs ++ '"' :: rest)), parseStringBody.eq_def]
                simp [unescChar, ih]
              · by_cases h7 : c = Char.ofNat 12
                · subst h7
                  rw [(by simp [escapeChar] :
                    escapeChar (Char.ofNat 12) ++ (escapeList cs ++ '"' :: rest)
                    = '\\' :: 'f' :: (escapeList cs ++ '"' :: rest)), parseStringBody.eq_def]
                  simp [unescChar, ih]
                · by_cases h8 : c.toNat < 32
                  · have e1 : hexVal (hexDigChar (c.toNat / 16)) = some (c.toNat / 16) :=
                      hexVal_hexDigChar _ (by omega)
                    have e2 : hexVal (hexDigChar (c.toNat % 16)) = some (c.toNat % 16) :=
                      hexVal_hexDigChar _ (by omega)
                    rw [(by simp [escapeChar, h1, h2, h3, h4, h5, h6, h7, h8] :
                      escapeChar c ++ (escapeList cs ++ '"' :: rest)
                      = '\\' :: 'u' :: '0' :: '0' :: hexDigChar (c.toNat / 16) ::
                        hexDigChar (c.toNat % 16) :: (escapeList cs ++ '"' :: rest)),
                      parseStringBody.eq_def]
                    simp only []
                    rw [(by decide : hexVal '0' = some 0), e1, e2, ih]
                    have hval : ((0 * 16 + 0) * 16 + c.toNat / 16) * 16 + c.toNat % 16
                        = c.toNat := by omega
                    simp [hval, Char.ofNat_toNat]
                    have harg : c.toNat / 16 * 16 + c.toNat % 16 = c.toNat := by omega
                    rw [harg, Char.ofNat_toNat]
                  · rw [(by simp [escapeChar, h1, h2, h3, h4, h5, h6, h7, h8] :
                      escapeChar c ++ (escapeList cs ++ '"' :: rest)
                      = c :: (escapeList cs ++ '"' :: rest)), parseStringBody.eq_def]
                    simp [h1, h2, h8, ih]

/-! ## Decimal-digit round trip -/

theorem natDigitsAux_fuel (fuel fuel2 n : Nat) (h : n < fuel) (h2 : n < fuel2) :
    natDigitsAux fuel n = natDigitsAux fuel2 n := by
  induction fuel generalizing fuel2 n with
  | zero => omega
  | succ fuel ih =>
    cases fuel2 with
    | zero => omega
    | succ fuel2 =>
      simp only [natDigitsAux]
      by_cases h10 : n < 10
      · simp [h10]
      · have hdiv : n / 10 < n := Nat.div_lt_self (by omega) (by omega)
        simp only [if_neg h10]
        rw [ih fuel2 (n / 10) (by omega) (by omega)]

theorem natDigits_lt (n : Nat) (h : n < 10) : natDigits n = [digitChar n] := by
  simp [natDigits, natDigitsAux, h]

theorem natDigits_ge (n : Nat) (h : 10 ≤ n) :
    natDigits n = natDigits (n / 10) ++ [digitChar (n % 10)] := by
  have hdiv : n / 10 < n := Nat.div_lt_self (by omega) (by omega)
  conv_lhs => rw [natDigits]
  rw [show natDigitsAux (n + 1) n = natDigitsAux n (n / 10) ++ [digitChar (n % 10)] from by
    simp only [natDigitsAux, if_neg (by omega : ¬n < 10)],
    natDigitsAux_fuel n (n / 10 + 1) (n / 10) (by omega) (by omega)]
  rfl

theorem digitChar_isDigit (n : Nat) : (digitChar n).isDigit = true := by
  have h : ∀ m, m < 10 → (hexDigChar m).isDigit = true := by decide
  have : n % 10 < 10 := by omega
  exact h (n % 10) this

theorem digitChar_val (n : Nat) (h : n < 10) : (digitChar n).toNat - 48 = n := by
  have key : ∀ m, m < 10 → (digitChar m).toNat - 48 = m := by decide
  exact key n h

theorem natDigits_ne_nil (n : Nat) : natDigits n ≠ [] := by
  by_cases h : n < 10
  · simp [natDigits_lt n h]
  · simp [natDigits_ge n (by omega)]

theorem natDigits_all_digit (n : Nat) : ∀ c ∈ natDigits n, c.isDigit = true := by
  induction n using Nat.strong_induction_on with
  | _ n ih =>
    by_cases h : n < 10
    · rw [natDigits_lt n h]
      intro c hc
      rw [List.mem_singleton] at hc
      subst hc
      exact digitChar_isDigit n
    · rw [natDigits_ge n (by omega)]
      intro c hc
      rcases List.mem_append.mp hc with hc | hc
      · exact ih (n / 10) (Nat.div_lt_self (by omega) (by omega)) c hc
      · rw [List.mem_singleton] at hc
        subst hc
        exact digitChar_isDigit (n % 10)

theorem digitsVal_append_single (ds : List Char) (c : Char) :
    digitsVal (ds ++ [c]) = 10 * digitsVal ds + (c.toNat - 48) := by
  simp [digitsVal, List.foldl_append]

theorem digitsVal_natDigits (n : Nat) : digitsVal (natDigits n) = n := by
  induction n using Nat.strong_induction_on with
  | _ n ih =>
    by_cases h : n < 10
    · rw [natDigits_lt n h]
      have := digitChar_val n h
      simp [digitsVal]
      omega
    · rw [natDigits_ge n (by omega), digitsVal_append_single,
        ih (n / 10) (Nat.div_lt_self (by omega) (by omega)),
        digitChar_val (n % 10) (by omega)]
      omega

theorem natDigits_head_ne_zero (n : Nat) (h : 1 ≤ n) :
    ∀ d ds, natDigits n = d :: ds → d ≠ '0' := by
  induction n using Nat.strong_induction_on with
  | _ n ih =>
    by_cases h10 : n < 10
    · rw [natDigits_lt n h10]
      intro d ds hd
      have hdd : d = digitChar n := by
        cases hd
        rfl
      subst hdd
      have key : ∀ m, 1 ≤ m → m < 10 → digitChar m ≠ '0' := by decide
      exact key n h h10
    · rw [natDigits_ge n (by omega)]
      intro d ds hd
      have h1 : 1 ≤ n / 10 := (Nat.one_le_div_iff (by omega)).mpr (by omega)
      obtain ⟨d0, ds0, hsub⟩ : ∃ d0 ds0, natDigits (n / 10) = d0 :: ds0 := by
        cases hnd : natDigits (n / 10) with
        | nil => exact absurd hnd (natDigits_ne_nil _)
        | cons a b => exact ⟨a, b, rfl⟩
      rw [hsub] at hd
      have hdd0 : d = d0 := by
        cases hd
        rfl
      rw [hdd0]
      exact ih (n / 10) (Nat.div_lt_self (by omega) (by omega)) h1 d0 ds0 hsub

/-! ## takeWhile / dropWhile over a digit run -/

theorem takeWhile_append_stop (p : Char → Bool) (a b : List Char)
    (ha : ∀ c ∈ a, p c = true) (hb : ∀ c, b.head? = some c → p c = false) :
    (a ++ b).takeWhile p = a := by
  induction a with
  | nil =>
    cases b with
    | nil => rfl
    | cons c t => simp [List.takeWhile_cons, hb c rfl]
  | cons c t ih =>
    simp only [List.cons_append, List.takeWhile_cons, ha c (by simp)]
    rw [ih fun x hx => ha x (by simp [hx])]
    simp

theorem dropWhile_append_stop (p : Char → Bool) (a b : List Char)
    (ha : ∀ c ∈ a, p c = true) (hb : ∀ c, b.head? = some c → p c = false) :
    (a ++ b).dropWhile p = b := by
  induction a with
  | nil =>
    cases b with
    | nil => rfl
    | cons c t => simp [List.dropWhile_cons, hb c rfl]
  | cons c t ih =>
    simp only [List.cons_append, List.dropWhile_cons, ha c (by simp)]
    rw [ih fun x hx => ha x (by simp [hx])]
    simp

theorem parseDigits_natDigits (n : Nat) (rest : List Char)
    (hrest : ∀ c, rest.head? = some c → c.isDigit = false) :
    parseDigits (natDigits n ++ rest) = some (n, rest) := by
  rw [parseDigits.eq_def,
    takeWhile_append_stop Char.isDigit (natDigits n) rest (natDigits_all_digit n) hrest,
    dropWhile_append_stop Char.isDigit (natDigits n) rest (natDigits_all_digit n) hrest]
  obtain ⟨d, ds, hd⟩ : ∃ d ds, natDigits n = d :: ds := by
    cases hnd : natDigits n with
    | nil => exact absurd hnd (natDigits_ne_nil _)
    | cons a b => exact ⟨a, b, rfl⟩
  rw [hd]
  have hcond : (d = '0' && ds ≠ []) = false := by
    by_cases h1 : 1 ≤ n
    · have := natDigits_head_ne_zero n h1 d ds hd
      simp [this]
    · have hn : n = 0 := by omega
      subst hn
      have : natDigits 0 = ['0'] := by decide
      rw [this] at hd
      cases hd
      simp
  simp only [hcond, Bool.false_eq_true, if_false]
  rw [← hd, digitsVal_natDigits]

/-! ## First characters of printed values -/

/-- Characters that can start a printed JSON value. -/
def isStartChar (c : Char) : Bool :=
  c = 'n' || c = 't' || c = 'f' || c = '"' || c = '[' || c = '\x7b' || c = '-' || c.isDigit

theorem startChar_not_ws (c : Char) (h : isStartChar c = true) : isWsChar c = false := by
  by_cases hw : isWsChar c = true
  · simp only [isWsChar, Bool.or_eq_true, decide_eq_true_eq] at hw
    rcases hw with ((rfl | rfl) | rfl) | rfl <;> exact absurd h (by decide)
  · simpa using hw

theorem startChar_ne (c : Char) (h : isStartChar c = true) :
    c ≠ ']' ∧ c ≠ '\x7d' ∧ c ≠ ',' ∧ c ≠ ':' := by
  refine ⟨?_, ?_, ?_, ?_⟩ <;> intro he <;> rw [he] at h <;> exact absurd h (by decide)

theorem digit_not_start_letters (c : Char) (h : c.isDigit = true) :
    c ≠ 'n' ∧ c ≠ 't' ∧ c ≠ 'f' ∧ c ≠ '"' ∧ c ≠ '[' ∧ c ≠ '\x7b' ∧ c ≠ '-' := by
  refine ⟨?_, ?_, ?_, ?_, ?_, ?_, ?_⟩ <;> intro he <;> rw [he] at h <;> exact absurd h (by decide)

theorem printVal_start (ind : Nat) (j : Json) :
    ∃ c cs, printVal ind j = c :: cs ∧ isStartChar c = true := by
  cases j with
  | null => exact ⟨'n', _, rfl, by decide⟩
  | bool b =>
    cases b with
    | false => exact ⟨'f', _, rfl, by decide⟩
    | true => exact ⟨'t', _, rfl, by decide⟩
  | num n =>
    by_cases hn : n < 0
    · refine ⟨'-', natDigits n.natAbs, ?_, by decide⟩
      simp [printVal, printInt, hn]
    · obtain ⟨d, ds, hd⟩ : ∃ d ds, natDigits n.toNat = d :: ds := by
        cases hnd : natDigits n.toNat with
        | nil => exact absurd hnd (natDigits_ne_nil _)
        | cons a b => exact ⟨a, b, rfl⟩
      refine ⟨d, ds, ?_, ?_⟩
      · simp [printVal, printInt, hn, hd]
      · have hdig : d.isDigit = true := natDigits_all_digit n.toNat d (by simp [hd])
        simp [isStartChar, hdig]
  | str s => exact ⟨'"', _, rfl, by decide⟩
  | arr xs =>
    cases xs with
    | nil => exact ⟨'[', _, rfl, by decide⟩
    | cons x t => exact ⟨'[', _, rfl, by decide⟩
  | obj fs =>
    cases fs with
    | nil => exact ⟨'\x7b', _, rfl, by decide⟩
    | cons f t => exact ⟨'\x7b', _, rfl, by decide⟩

theorem digit_not_ws (c : Char) (h : c.isDigit = true) : isWsChar c = false := by
  by_cases hw : isWsChar c = true
  · simp only [isWsChar, Bool.or_eq_true, decide_eq_true_eq] at hw
    rcases hw with ((rfl | rfl) | rfl) | rfl <;> exact absurd h (by decide)
  · simpa using hw

theorem printElems_head (ind : Nat) (x : Json) (xs : List Json) :
    ∃ c cs, printElems ind (x :: xs) = c :: cs ∧ isStartChar c = true := by
  obtain ⟨c, cs0, hpx, hs⟩ := printVal_start ind x
  cases xs with
  | nil => exact ⟨c, cs0, by simp [printElems, hpx], hs⟩
  | cons y ys =>
    refine ⟨c, cs0 ++ ',' :: '\n' :: spaces ind ++ printElems ind (y :: ys), ?_, hs⟩
    simp [printElems, hpx]

theorem printFields_head (ind : Nat) (f : String × Json) (fs : List (String × Json)) :
    ∃ cs, printFields ind (f :: fs) = '"' :: cs := by
  obtain ⟨k, v⟩ := f
  cases fs with
  | nil =>
    refine ⟨escapeList k.data ++ '"' :: ':' :: ' ' :: printVal ind v, ?_⟩
    simp [printFields]
  | cons g gs =>
    refine ⟨escapeList k.data ++
      '"' :: ':' :: ' ' :: (printVal ind v ++ ',' :: '\n' :: (spaces ind ++ printFields ind (g :: gs))), ?_⟩
    simp [printFields]

set_option maxHeartbeats 1000000

theorem parse_print (fuel : Nat) :
    (∀ ind j ws rest, (∀ c ∈ ws, isWsChar c = true) →
      (∀ c, rest.head? = some c → c.isDigit = false) →
      2 * (ws.length + (printVal ind j).length + rest.length) + 2 ≤ fuel →
      parseVal fuel (ws ++ printVal ind j ++ rest) = some (j, rest)) ∧
    (∀ ind indc xs ws rest, xs ≠ [] → (∀ c ∈ ws, isWsChar c = true) →
      2 * (ws.length + (printElems ind xs).length + indc + rest.length) + 7 ≤ fuel →
      parseItems fuel (ws ++ printElems ind xs ++ '\n' :: (spaces indc ++ ']' :: rest))
        = some (xs, rest)) ∧
    (∀ ind indc fs ws rest, fs ≠ [] → (∀ c ∈ ws, isWsChar c = true) →
      2 * (ws.length + (printFields ind fs).length + indc + rest.length) + 7 ≤ fuel →
      parseFields fuel (ws ++ printFields ind fs ++ '\n' :: (spaces indc ++ '\x7d' :: rest))
        = some (fs, rest)) := by
  induction fuel with
  | zero =>
    refine ⟨?_, ?_, ?_⟩ <;> · intros; omega
  | succ fuel ih =>
    obtain ⟨ihv, ihi, ihf⟩ := ih
    refine ⟨?_, ?_, ?_⟩
    · intro ind j ws rest hws hrest hlen
      cases j with
      | null =>
        have hskip : skipWs (ws ++ printVal ind Json.null ++ rest)
            = 'n' :: 'u' :: 'l' :: 'l' :: rest := by
          rw [List.append_assoc]
          rw [show printVal ind Json.null ++ rest = 'n' :: 'u' :: 'l' :: 'l' :: rest from by
            simp [printVal]]
          rw [skipWs_append_ws _ _ hws, skipWs_cons_not _ _ (by decide)]
        simp only [parseVal, hskip]
        simp
      | bool b =>
        cases b with
        | true =>
          have hskip : skipWs (ws ++ printVal ind (Json.bool true) ++ rest)
              = 't' :: 'r' :: 'u' :: 'e' :: rest := by
            rw [List.append_assoc]
            rw [show printVal ind (Json.bool true) ++ rest = 't' :: 'r' :: 'u' :: 'e' :: rest
              from by simp [printVal]]
            rw [skipWs_append_ws _ _ hws, skipWs_cons_not _ _ (by decide)]
          simp only [parseVal, hskip]
          simp
        | false =>
          have hskip : skipWs (ws ++ printVal ind (Json.bool false) ++ rest)
              = 'f' :: 'a' :: 'l' :: 's' :: 'e' :: rest := by
            rw [List.append_assoc]
            rw [show printVal ind (Json.bool false) ++ rest
                = 'f' :: 'a' :: 'l' :: 's' :: 'e' :: rest from by simp [printVal]]
            rw [skipWs_append_ws _ _ hws, skipWs_cons_not _ _ (by decide)]
          simp only [parseVal, hskip]
          simp
      | num n =>
        by_cases hn : n < 0
        · have hshape : printVal ind (Json.num n) = '-' :: natDigits n.natAbs := by
            simp [printVal, printInt, hn]
          have hskip : skipWs (ws ++ printVal ind (Json.num n) ++ rest)
              = '-' :: (natDigits n.natAbs ++ rest) := by
            rw [List.append_assoc, hshape]
            rw [show ('-' :: natDigits n.natAbs) ++ rest = '-' :: (natDigits n.natAbs ++ rest)
              from by simp]
            rw [skipWs_append_ws _ _ hws, skipWs_cons_not _ _ (by decide)]
          simp only [parseVal, hskip]
          rw [parseDigits_natDigits n.natAbs rest hrest]
          have hval : -((n.natAbs : Nat) : Int) = n := by omega
          simp [hval]
          rw [abs_of_neg hn]
          ring
        · have hshape : printVal ind (Json.num n) = natDigits n.toNat := by
            simp [printVal, printInt, hn]
          obtain ⟨d, ds, hd⟩ : ∃ d ds, natDigits n.toNat = d :: ds := by
            cases hnd : natDigits n.toNat with
            | nil => exact absurd hnd (natDigits_ne_nil _)
            | cons a b => exact ⟨a, b, rfl⟩
          have hdig : d.isDigit = true := natDigits_all_digit n.toNat d (by simp [hd])
          obtain ⟨hd1, hd2, hd3, hd4, hd5, hd6, hd7⟩ := digit_not_start_letters d hdig
          have hskip : skipWs (ws ++ printVal ind (Json.num n) ++ rest)
              = d :: (ds ++ rest) := by
            rw [List.append_assoc, hshape, hd]
            rw [show (d :: ds) ++ rest = d :: (ds ++ rest) from by simp]
            rw [skipWs_append_ws _ _ hws, skipWs_cons_not _ _ (digit_not_ws d hdig)]
          simp only [parseVal, hskip]
          rw [if_neg hd1, if_neg hd2, if_neg hd3, if_neg hd4, if_neg hd5, if_neg hd6,
            if_neg hd7, if_pos hdig]
          rw [show d :: (ds ++ rest) = (d :: ds) ++ rest from by simp, ← hd,
            parseDigits_natDigits n.toNat rest hrest]
          have hval : ((n.toNat : Nat) : Int) = n := Int.toNat_of_nonneg (by omega)
          simp [hval]
      | str s =>
        have hskip : skipWs (ws ++ printVal ind (Json.str s) ++ rest)
            = '"' :: (escapeList s.data ++ '"' :: rest) := by
          rw [List.append_assoc]
          rw [show printVal ind (Json.str s) ++ rest
              = '"' :: (escapeList s.data ++ '"' :: rest) from by simp [printVal]]
          rw [skipWs_append_ws _ _ hws, skipWs_cons_not _ _ (by decide)]
        simp only [parseVal, hskip]
        rw [parseStringBody_escape s.data rest]
        simp
      | arr xs =>
        cases xs with
        | nil =>
          have hskip : skipWs (ws ++ printVal ind (Json.arr []) ++ rest)
              = '[' :: ']' :: rest := by
            rw [List.append_assoc]
            rw [show printVal ind (Json.arr []) ++ rest = '[' :: ']' :: rest from by
              simp [printVal]]
            rw [skipWs_append_ws _ _ hws, skipWs_cons_not _ _ (by decide)]
          have hskip2 : skipWs (']' :: rest) = ']' :: rest :=
            skipWs_cons_not _ _ (by decide)
          simp only [parseVal, hskip, hskip2]
          simp
        | cons x xs =>
          have hshape : ws ++ printVal ind (Json.arr (x :: xs)) ++ rest
              = ws ++ '[' :: ('
' :: (spaces (ind + 2) ++ (printElems (ind + 2) (x :: xs)
                ++ '
' :: (spaces ind ++ ']' :: rest)))) := by
            simp [printVal]
          obtain ⟨c0, cs0, hpe, hstart⟩ := printElems_head (ind + 2) x xs
          have hskip1 : skipWs (ws ++ '[' :: ('
' :: (spaces (ind + 2)
              ++ (printElems (ind + 2) (x :: xs) ++ '
' :: (spaces ind ++ ']' :: rest)))))
              = '[' :: ('
' :: (spaces (ind + 2) ++ (printElems (ind + 2) (x :: xs)
                ++ '
' :: (spaces ind ++ ']' :: rest)))) := by
            rw [skipWs_append_ws _ _ hws, skipWs_cons_not _ _ (by decide)]
          have hwsnl : ∀ c ∈ '
' :: spaces (ind + 2), isWsChar c = true := by
            intro c hc
            rcases List.mem_cons.mp hc with rfl | h
            · decide
            · exact spaces_ws _ c h
          have hskip2 : skipWs ('
' :: (spaces (ind + 2) ++ (printElems (ind + 2) (x :: xs)
              ++ '
' :: (spaces ind ++ ']' :: rest))))
              = c0 :: (cs0 ++ '
' :: (spaces ind ++ ']' :: rest)) := by
            rw [show '
' :: (spaces (ind + 2) ++ (printElems (ind + 2) (x :: xs)
                ++ '
' :: (spaces ind ++ ']' :: rest)))
              = ('
' :: spaces (ind + 2)) ++ (printElems (ind + 2) (x :: xs)
                ++ '
' :: (spaces ind ++ ']' :: rest)) from by simp]
            rw [skipWs_append_ws _ _ hwsnl, hpe]
            rw [show (c0 :: cs0) ++ '
' :: (spaces ind ++ ']' :: rest)
              = c0 :: (cs0 ++ '
' :: (spaces ind ++ ']' :: rest)) from by simp]
            exact skipWs_cons_not _ _ (startChar_not_ws c0 hstart)
          have hc0 : ¬c0 = ']' := (startChar_ne c0 hstart).1
          have hlp : (printVal ind (Json.arr (x :: xs))).length
              = (printElems (ind + 2) (x :: xs)).length + 2 * ind + 6 := by
            simp [printVal, spaces]
            omega
          have happ := ihi (ind + 2) ind (x :: xs) [] rest (by simp) (by simp)
            (by simp only [List.length_nil]; omega)
          simp only [List.nil_append] at happ
          rw [hshape]
          simp only [parseVal, hskip1, hskip2, if_neg hc0]
          rw [show c0 :: (cs0 ++ '
' :: (spaces ind ++ ']' :: rest))
            = (c0 :: cs0) ++ '
' :: (spaces ind ++ ']' :: rest) from by simp, ← hpe, happ]
          simp
      | obj fs =>
        cases fs with
        | nil =>
          have hskip : skipWs (ws ++ printVal ind (Json.obj []) ++ rest)
              = '{' :: '}' :: rest := by
            rw [List.append_assoc]
            rw [show printVal ind (Json.obj []) ++ rest = '{' :: '}' :: rest from by
              simp [printVal]]
            rw [skipWs_append_ws _ _ hws, skipWs_cons_not _ _ (by decide)]
          have hskip2 : skipWs ('}' :: rest) = '}' :: rest :=
            skipWs_cons_not _ _ (by decide)
          simp only [parseVal, hskip, hskip2]
          simp
        | cons f fs =>
          have hshape : ws ++ printVal ind (Json.obj (f :: fs)) ++ rest
              = ws ++ '{' :: ('
' :: (spaces (ind + 2) ++ (printFields (ind + 2) (f :: fs)
                ++ '
' :: (spaces ind ++ '}' :: rest)))) := by
            simp [printVal]
          obtain ⟨cs0, hpf⟩ := printFields_head (ind + 2) f fs
          have hskip1 : skipWs (ws ++ '{' :: ('
' :: (spaces (ind + 2)
              ++ (printFields (ind + 2) (f :: fs) ++ '
' :: (spaces ind ++ '}' :: rest)))))
              = '{' :: ('
' :: (spaces (ind + 2) ++ (printFields (ind + 2) (f :: fs)
                ++ '
' :: (spaces ind ++ '}' :: rest)))) := by
            rw [skipWs_append_ws _ _ hws, skipWs_cons_not _ _ (by decide)]
          have hwsnl : ∀ c ∈ '
' :: spaces (ind + 2), isWsChar c = true := by
            intro c hc
            rcases List.mem_cons.mp hc with rfl | h
            · decide
            · exact spaces_ws _ c h
          have hskip2 : skipWs ('
' :: (spaces (ind + 2) ++ (printFields (ind + 2) (f :: fs)
              ++ '
' :: (spaces ind ++ '}' :: rest))))
              = '"' :: (cs0 ++ '
' :: (spaces ind ++ '}' :: rest)) := by
            rw [show '
' :: (spaces (ind + 2) ++ (printFields (ind + 2) (f :: fs)
                ++ '
' :: (spaces ind ++ '}' :: rest)))
              = ('
' :: spaces (ind + 2)) ++ (printFields (ind + 2) (f :: fs)
                ++ '
' :: (spaces ind ++ '}' :: rest)) from by simp]
            rw [skipWs_append_ws _ _ hwsnl, hpf]
            rw [show ('"' :: cs0) ++ '
' :: (spaces ind ++ '}' :: rest)
              = '"' :: (cs0 ++ '
' :: (spaces ind ++ '}' :: rest)) from by simp]
            exact skipWs_cons_not _ _ (by decide)
          have hlp : (printVal ind (Json.obj (f :: fs))).length
              = (printFields (ind + 2) (f :: fs)).length + 2 * ind + 6 := by
            simp [printVal, spaces]
            omega
          have happ := ihf (ind + 2) ind (f :: fs) [] rest (by simp) (by simp)
            (by simp only [List.length_nil]; omega)
          simp only [List.nil_append] at happ
          rw [hshape]
          simp only [parseVal, hskip1, hskip2]
          rw [show '"' :: (cs0 ++ '
' :: (spaces ind ++ '}' :: rest))
            = ('"' :: cs0) ++ '
' :: (spaces ind ++ '}' :: rest) from by simp, ← hpf, happ]
          simp
    · intro ind indc xs ws rest hne hws hlen
      cases xs with
      | nil => exact absurd rfl hne
      | cons x xs =>
        cases xs with
        | nil =>
          have hshape : ws ++ printElems ind [x] ++ '\n' :: (spaces indc ++ ']' :: rest)
              = ws ++ printVal ind x ++ '\n' :: (spaces indc ++ ']' :: rest) := by
            simp [printElems]
          have hrest1 : ∀ c, ('\n' :: (spaces indc ++ ']' :: rest)).head? = some c →
              c.isDigit = false := by
            intro c hc
            simp only [List.head?_cons, Option.some_inj] at hc
            subst hc
            decide
          have hlpe : (printElems ind [x]).length = (printVal ind x).length := by
            simp [printElems]
          have hv := ihv ind x ws ('\n' :: (spaces indc ++ ']' :: rest)) hws hrest1
            (by simp only [List.length_cons, List.length_append, List.length_cons, spaces,
              List.length_replicate]; omega)
          have hwsnl : ∀ c ∈ '\n' :: spaces indc, isWsChar c = true := by
            intro c hc
            rcases List.mem_cons.mp hc with rfl | h
            · decide
            · exact spaces_ws _ c h
          have hskip : skipWs ('\n' :: (spaces indc ++ ']' :: rest)) = ']' :: rest := by
            rw [show '\n' :: (spaces indc ++ ']' :: rest)
              = ('\n' :: spaces indc) ++ ']' :: rest from by simp]
            rw [skipWs_append_ws _ _ hwsnl]
            exact skipWs_cons_not _ _ (by decide)
          rw [hshape]
          simp only [parseItems, hv]
          simp [hskip]
        | cons y ys =>
          have hshape : ws ++ printElems ind (x :: y :: ys)
                ++ '\n' :: (spaces indc ++ ']' :: rest)
              = ws ++ printVal ind x ++ ',' :: ('\n' :: (spaces ind
                ++ (printElems ind (y :: ys) ++ '\n' :: (spaces indc ++ ']' :: rest)))) := by
            simp [printElems]
          have hrest1 : ∀ c, (',' :: ('\n' :: (spaces ind ++ (printElems ind (y :: ys)
              ++ '\n' :: (spaces indc ++ ']' :: rest))))).head? = some c →
              c.isDigit = false := by
            intro c hc
            simp only [List.head?_cons, Option.some_inj] at hc
            subst hc
            decide
          have hpvpos : 1 ≤ (printVal ind x).length := by
            obtain ⟨c, cs, hp, _⟩ := printVal_start ind x
            simp [hp]
          have hlpe : (printElems ind (x :: y :: ys)).length = (printVal ind x).length
              + (printElems ind (y :: ys)).length + ind + 2 := by
            simp [printElems, spaces]
            omega
          have hv := ihv ind x ws (',' :: ('\n' :: (spaces ind ++ (printElems ind (y :: ys)
              ++ '\n' :: (spaces indc ++ ']' :: rest))))) hws hrest1
            (by simp only [List.length_cons, List.length_append, spaces,
              List.length_replicate]; omega)
          have hwsnl : ∀ c ∈ '\n' :: spaces ind, isWsChar c = true := by
            intro c hc
            rcases List.mem_cons.mp hc with rfl | h
            · decide
            · exact spaces_ws _ c h
          have hi := ihi ind indc (y :: ys) ('\n' :: spaces ind) rest (by simp) hwsnl
            (by simp only [List.length_cons, spaces, List.length_replicate]; omega)
          have hieq : ('\n' :: spaces ind) ++ printElems ind (y :: ys)
              ++ '\n' :: (spaces indc ++ ']' :: rest)
              = '\n' :: (spaces ind ++ (printElems ind (y :: ys)
                ++ '\n' :: (spaces indc ++ ']' :: rest))) := by
            simp
          rw [hieq] at hi
          have hskipc : skipWs (',' :: ('\n' :: (spaces ind ++ (printElems ind (y :: ys)
              ++ '\n' :: (spaces indc ++ ']' :: rest)))))
              = ',' :: ('\n' :: (spaces ind ++ (printElems ind (y :: ys)
                ++ '\n' :: (spaces indc ++ ']' :: rest)))) :=
            skipWs_cons_not _ _ (by decide)
          rw [hshape]
          simp only [parseItems, hv]
          simp [hskipc, hi]
    · intro ind indc fs ws rest hne hws hlen
      cases fs with
      | nil => exact absurd rfl hne
      | cons f fs =>
        obtain ⟨k, v⟩ := f
        cases fs with
        | nil =>
          have hshape : ws ++ printFields ind [(k, v)]
                ++ '\n' :: (spaces indc ++ '\x7d' :: rest)
              = ws ++ '"' :: (escapeList k.data ++ '"' :: (':' :: (' ' :: (printVal ind v
                ++ '\n' :: (spaces indc ++ '\x7d' :: rest))))) := by
            simp [printFields]
          have hskip1 : skipWs (ws ++ '"' :: (escapeList k.data ++ '"' :: (':' :: (' '
              :: (printVal ind v ++ '\n' :: (spaces indc ++ '\x7d' :: rest))))))
              = '"' :: (escapeList k.data ++ '"' :: (':' :: (' ' :: (printVal ind v
                ++ '\n' :: (spaces indc ++ '\x7d' :: rest))))) := by
            rw [skipWs_append_ws _ _ hws]
            exact skipWs_cons_not _ _ (by decide)
          have hstr := parseStringBody_escape k.data
            (':' :: (' ' :: (printVal ind v ++ '\n' :: (spaces indc ++ '\x7d' :: rest))))
          have hskip2 : skipWs (':' :: (' ' :: (printVal ind v
              ++ '\n' :: (spaces indc ++ '\x7d' :: rest))))
              = ':' :: (' ' :: (printVal ind v ++ '\n' :: (spaces indc ++ '\x7d' :: rest))) :=
            skipWs_cons_not _ _ (by decide)
          have hrest1 : ∀ c, ('\n' :: (spaces indc ++ '\x7d' :: rest)).head? = some c →
              c.isDigit = false := by
            intro c hc
            simp only [List.head?_cons, Option.some_inj] at hc
            subst hc
            decide
          have hlpf : (printFields ind [(k, v)]).length
              = (escapeList k.data).length + (printVal ind v).length + 4 := by
            simp [printFields]
            omega
          have hv := ihv ind v [' '] ('\n' :: (spaces indc ++ '\x7d' :: rest))
            (by intro c hc; rcases List.mem_singleton.mp hc with rfl; decide) hrest1
            (by simp only [List.length_cons, List.length_append, List.length_nil, spaces,
              List.length_replicate]; omega)
          have hveq : [' '] ++ printVal ind v ++ '\n' :: (spaces indc ++ '\x7d' :: rest)
              = ' ' :: (printVal ind v ++ '\n' :: (spaces indc ++ '\x7d' :: rest)) := by
            simp
          rw [hveq] at hv
          have hwsnl : ∀ c ∈ '\n' :: spaces indc, isWsChar c = true := by
            intro c hc
            rcases List.mem_cons.mp hc with rfl | h
            · decide
            · exact spaces_ws _ c h
          have hskip3 : skipWs ('\n' :: (spaces indc ++ '\x7d' :: rest))
              = '\x7d' :: rest := by
            rw [show '\n' :: (spaces indc ++ '\x7d' :: rest)
              = ('\n' :: spaces indc) ++ '\x7d' :: rest from by simp]
            rw [skipWs_append_ws _ _ hwsnl]
            exact skipWs_cons_not _ _ (by decide)
          rw [hshape]
          simp only [parseFields, hskip1]
          simp [hstr, hskip2, hv, hskip3]
        | cons g gs =>
          have hshape : ws ++ printFields ind ((k, v) :: g :: gs)
                ++ '\n' :: (spaces indc ++ '\x7d' :: rest)
              = ws ++ '"' :: (escapeList k.data ++ '"' :: (':' :: (' ' :: (printVal ind v
                ++ ',' :: ('\n' :: (spaces ind ++ (printFields ind (g :: gs)
                  ++ '\n' :: (spaces indc ++ '\x7d' :: rest)))))))) := by
            simp [printFields]
          have hskip1 : skipWs (ws ++ '"' :: (escapeList k.data ++ '"' :: (':' :: (' '
              :: (printVal ind v ++ ',' :: ('\n' :: (spaces ind ++ (printFields ind (g :: gs)
                ++ '\n' :: (spaces indc ++ '\x7d' :: rest)))))))))
              = '"' :: (escapeList k.data ++ '"' :: (':' :: (' ' :: (printVal ind v
                ++ ',' :: ('\n' :: (spaces ind ++ (printFields ind (g :: gs)
                  ++ '\n' :: (spaces indc ++ '\x7d' :: rest)))))))) := by
            rw [skipWs_append_ws _ _ hws]
            exact skipWs_cons_not _ _ (by decide)
          have hstr := parseStringBody_escape k.data
            (':' :: (' ' :: (printVal ind v ++ ',' :: ('\n' :: (spaces ind
              ++ (printFields ind (g :: gs) ++ '\n' :: (spaces indc ++ '\x7d' :: rest)))))))
          have hskip2 : skipWs (':' :: (' ' :: (printVal ind v ++ ',' :: ('\n' :: (spaces ind
              ++ (printFields ind (g :: gs) ++ '\n' :: (spaces indc ++ '\x7d' :: rest)))))))
              = ':' :: (' ' :: (printVal ind v ++ ',' :: ('\n' :: (spaces ind
                ++ (printFields ind (g :: gs)
                  ++ '\n' :: (spaces indc ++ '\x7d' :: rest)))))) :=
            skipWs_cons_not _ _ (by decide)
          have hrest1 : ∀ c, (',' :: ('\n' :: (spaces ind ++ (printFields ind (g :: gs)
              ++ '\n' :: (spaces indc ++ '\x7d' :: rest))))).head? = some c →
              c.isDigit = false := by
            intro c hc
            simp only [List.head?_cons, Option.some_inj] at hc
            subst hc
            decide
          have hlpf : (printFields ind ((k, v) :: g :: gs)).length
              = (escapeList k.data).length + (printVal ind v).length
                + (printFields ind (g :: gs)).length + ind + 6 := by
            simp [printFields, spaces]
            omega
          have hv := ihv ind v [' '] (',' :: ('\n' :: (spaces ind
              ++ (printFields ind (g :: gs) ++ '\n' :: (spaces indc ++ '\x7d' :: rest)))))
            (by intro c hc; rcases List.mem_singleton.mp hc with rfl; decide) hrest1
            (by simp only [List.length_cons, List.length_append, List.length_nil, spaces,
              List.length_replicate]; omega)
          have hveq : [' '] ++ printVal ind v ++ ',' :: ('\n' :: (spaces ind
              ++ (printFields ind (g :: gs) ++ '\n' :: (spaces indc ++ '\x7d' :: rest))))
              = ' ' :: (printVal ind v ++ ',' :: ('\n' :: (spaces ind
                ++ (printFields ind (g :: gs)
                  ++ '\n' :: (spaces indc ++ '\x7d' :: rest))))) := by
            simp
          rw [hveq] at hv
          have hskipc : skipWs (',' :: ('\n' :: (spaces ind ++ (printFields ind (g :: gs)
              ++ '\n' :: (spaces indc ++ '\x7d' :: rest)))))
              = ',' :: ('\n' :: (spaces ind ++ (printFields ind (g :: gs)
                ++ '\n' :: (spaces indc ++ '\x7d' :: rest)))) :=
            skipWs_cons_not _ _ (by decide)
          have hwsnl : ∀ c ∈ '\n' :: spaces ind, isWsChar c = true := by
            intro c hc
            rcases List.mem_cons.mp hc with rfl | h
            · decide
            · exact spaces_ws _ c h
          have hf := ihf ind indc (g :: gs) ('\n' :: spaces ind) rest (by simp) hwsnl
            (by simp only [List.length_cons, spaces, List.length_replicate]; omega)
          have hfeq : ('\n' :: spaces ind) ++ printFields ind (g :: gs)
              ++ '\n' :: (spaces indc ++ '\x7d' :: rest)
              = '\n' :: (spaces ind ++ (printFields ind (g :: gs)
                ++ '\n' :: (spaces indc ++ '\x7d' :: rest))) := by
            simp
          rw [hfeq] at hf
          rw [hshape]
          simp only [parseFields, hskip1]
          simp [hstr, hskip2, hv, hskipc, hf]

theorem jsonParse_stringify (j : Json) : jsonParse (jsonStringify j) = some j := by
  have hlen : (jsonStringify j).data = printVal 0 j := rfl
  have hv := (parse_print (2 * (printVal 0 j).length + 2)).1 0 j [] []
    (by simp) (by intro c hc; simp at hc) (by simp)
  simp only [List.nil_append, List.append_nil] at hv
  rw [jsonParse, hlen, hv]
  simp [skipWs]

theorem read_write_roundtrip (doc : Json) :
    readVotingPeriods (writeVotingPeriods doc) = doc := by
  rw [writeVotingPeriods, readVotingPeriods, jsonParse_stringify]

/-! ## JavaScript values for the validator layer

The validators are called with arbitrary JavaScript values (the tests pass
`null`, numbers and strings), so their inputs are modelled by a small
JavaScript value type. -/

/-- JavaScript runtime values, as far as the validators inspect them. -/
inductive JsValue where
  | undef
  | null
  | bool (b : Bool)
  | num (n : Int)
  | str (s : String)
  | arrV
  | objV
deriving Repr, DecidableEq

/-- Validation result shape `\x7bvalid, message?\x7d` returned by the validators. -/
structure VResult where
  valid : Bool
  message : Option String
deriving Repr, DecidableEq

/-- Modelled from the spec: `validateVotingPeriodState` (section 4.1), whose
defining module is not among the available sources. Valid iff the argument is
exactly the string "Ongoing" or the string "Archived"; any other value
(null, undefined, wrong type) is invalid. Pure and total: no side effects,
no exceptions. -/
def validateVotingPeriodState (state : JsValue) : Bool :=
  match state with
  | .str s => s = "Ongoing" || s = "Archived"
  | _ => false

/-- Modelled from the spec: the host's standard date parser (`Date` parsing),
used by `validateEndTime`; recognises ISO-8601 date/time strings
`YYYY-MM-DD(THH:MM:SS(.mmm)?(Z|+HH:MM|-HH:MM)?)?`. -/
def hostDateParses (s : String) : Bool :=
  match s.data with
  | y1 :: y2 :: y3 :: y4 :: '-' :: m1 :: m2 :: '-' :: d1 :: d2 :: rest =>
    y1.isDigit && y2.isDigit && y3.isDigit && y4.isDigit &&
    m1.isDigit && m2.isDigit && d1.isDigit && d2.isDigit &&
    (let month := (m1.toNat - 48) * 10 + (m2.toNat - 48)
     let day := (d1.toNat - 48) * 10 + (d2.toNat - 48)
     1 ≤ month && month ≤ 12 && 1 ≤ day && day ≤ 31) &&
    (match rest with
     | [] => true
     | 'T' :: h1 :: h2 :: ':' :: n1 :: n2 :: ':' :: s1 :: s2 :: tz =>
       h1.isDigit && h2.isDigit && n1.isDigit && n2.isDigit &&
       s1.isDigit && s2.isDigit &&
       ((h1.toNat - 48) * 10 + (h2.toNat - 48) ≤ 23) &&
       ((n1.toNat - 48) * 10 + (n2.toNat - 48) ≤ 59) &&
       ((s1.toNat - 48) * 10 + (s2.toNat - 48) ≤ 59) &&
       (match tz with
        | [] => true
        | ['Z'] => true
        | '.' :: f1 :: f2 :: f3 :: tz2 =>
          f1.isDigit && f2.isDigit && f3.isDigit &&
          (match tz2 with
           | [] => true
           | ['Z'] => true
           | [sg, o1, o2, ':', o3, o4] =>
             (sg = '+' || sg = '-') && o1.isDigit && o2.isDigit && o3.isDigit && o4.isDigit
           | _ => false)
        | [sg, o1, o2, ':', o3, o4] =>
          (sg = '+' || sg = '-') && o1.isDigit && o2.isDigit && o3.isDigit && o4.isDigit
        | _ => false)
     | _ => false)
  | _ => false

/-- Modelled from the spec: `validateEndTime` (section 4.2), whose defining
module is not among the available sources. `null` is valid (infinite-duration
period); any non-string is invalid; a string is valid iff the host's standard
date parser accepts it. -/
def validateEndTime (value : JsValue) : Bool :=
  match value with
  | .null => true
  | .str s => hostDateParses s
  | _ => false

/-! ## Voting-period validators (spec-modelled) -/

/-- One entry of a period's `jobVotes` array: a job reference and the pilots
who voted for it. -/
structure JobVoteEntry where
  jobId : String
  votes : List String
deriving Repr, DecidableEq

/-- A Job record, as far as `validateJobVotes` inspects it. -/
structure JobRec where
  id : String
  state : String
deriving Repr, DecidableEq

/-- Message naming a pilot that appears in more than one entry's votes. -/
def duplicateVoteMsg (pilotId : String) : String :=
  "Pilot " ++ pilotId ++ " has already voted for another job in this period"

/-- Message naming a referenced job that does not exist in the jobs context. -/
def jobNotFoundMsg (jobId : String) : String :=
  "Job " ++ jobId ++ " not found"

/-- Message naming a referenced job that is not in the Active state. -/
def jobNotActiveMsg (jobId state : String) : String :=
  "Job " ++ jobId ++ " is not Active (state: " ++ state ++ ")"

/-- First job of the context carrying the given id. -/
def findJob (jobs : List JobRec) (jobId : String) : Option JobRec :=
  jobs.find? (fun j => j.id == jobId)

/-- Modelled from the spec: the jobs-context checks of `validateJobVotes`
(section 4.3). Scans the entries in order; the first entry whose referenced
job is missing from the context, or whose referenced job is not in state
"Active", produces the corresponding message. -/
def checkJobsContext (jobs : List JobRec) : List JobVoteEntry → Option String
  | [] => none
  | e :: rest =>
    match findJob jobs e.jobId with
    | none => some (jobNotFoundMsg e.jobId)
    | some j =>
      if j.state == "Active" then checkJobsContext jobs rest
      else some (jobNotActiveMsg e.jobId j.state)

/-- Modelled from the spec: the cross-entry uniqueness scan of
`validateJobVotes` (section 4.3). Walks the entries in insertion order,
carrying the set of pilot ids seen in earlier entries; the first pilot
already seen in an earlier entry is the duplicate reported. -/
def findDuplicate (seen : List String) : List JobVoteEntry → Option String
  | [] => none
  | e :: rest =>
    match e.votes.find? (fun p => seen.contains p) with
    | some p => some p
    | none => findDuplicate (seen ++ e.votes) rest

/-- Result of the pure structural/uniqueness part of `validateJobVotes`. -/
def dupCheckResult (jobVotes : List JobVoteEntry) : VResult :=
  match findDuplicate [] jobVotes with
  | some p => ⟨false, some (duplicateVoteMsg p)⟩
  | none => ⟨true, none⟩

/-- Modelled from the spec: `validateJobVotes` (section 4.3), whose defining
module is not among the available sources. With a jobs context supplied, every
referenced job must exist and be in state "Active" (failures name the job and
the reason); the cross-entry uniqueness invariant is then checked, the first
duplicate pilot found (in insertion order) being the one named. With the
context omitted, the two job checks are skipped entirely and only the
uniqueness scan runs. -/
def validateJobVotes (jobVotes : List JobVoteEntry)
    (jobsContext : Option (List JobRec)) : VResult :=
  match jobsContext with
  | some jobs =>
    match checkJobsContext jobs jobVotes with
    | some msg => ⟨false, some msg⟩
    | none => dupCheckResult jobVotes
  | none => dupCheckResult jobVotes

/-- A voting period, as far as the validators inspect it. `state` and
`endTime` are arbitrary JavaScript values (the validators must reject wrong
types); `jobVotes` is a sequence of entries. -/
structure Period where
  id : String
  state : JsValue
  jobVotes : List JobVoteEntry
  endTime : JsValue
deriving Repr, DecidableEq

/-- Message reported when the period state is invalid. -/
def invalidStateMsg : String := "Invalid voting period state"

/-- Message reported when the period end time is invalid. -/
def invalidEndTimeMsg : String := "Invalid end time"

/-- Modelled from the spec: `validateVotingPeriodData` (section 4.4), whose
defining module is not among the available sources. Checks run in the fixed
order state, endTime, jobVotes (the latter without a jobs context); the first
failing check's message is reported and later checks are not consulted. -/
def validateVotingPeriodData (period : Period) : VResult :=
  if !validateVotingPeriodState period.state then ⟨false, some invalidStateMsg⟩
  else if !validateEndTime period.endTime then ⟨false, some invalidEndTimeMsg⟩
  else validateJobVotes period.jobVotes none

/-- State test used by the ongoing-period lookup (strict equality with the
string "Ongoing"). -/
def isOngoing (p : Period) : Bool :=
  match p.state with
  | .str s => s == "Ongoing"
  | _ => false

/-- Modelled from the spec: `getOngoingVotingPeriod` (section 4.5), whose
defining module is not among the available sources. Scans the sequence in
order and returns the first entry whose state is "Ongoing", or none
(modelling null) when there is no such entry; it performs no validation of
the at-most-one-ongoing invariant. -/
def getOngoingVotingPeriod (periods : List Period) : Option Period :=
  periods.find? isOngoing

/-! ## Emblem filename safety (helpers.js) -/

/-- Character class `[A-Za-z0-9_-]` of `SAFE_EMBLEM_PATTERN`. -/
def isSafeNameChar (c : Char) : Bool :=
  c.isAlpha || c.isDigit || c = '_' || c = '-'

/-- Model of Node's POSIX `path.basename`: the last portion of the path,
with trailing separators ignored. -/
def posixBasename (cs : List Char) : List Char :=
  let trimmed := (cs.reverse.dropWhile (fun c => c == '/')).reverse
  (trimmed.reverse.takeWhile (fun c => c != '/')).reverse

/-- Model of `SAFE_EMBLEM_PATTERN.test`: the anchored regular expression
`[A-Za-z0-9_-]+\.svg` (one or more safe characters followed by the literal
suffix ".svg"). -/
def matchesSafeEmblem (cs : List Char) : Bool :=
  5 ≤ cs.length && cs.drop (cs.length - 4) == ['.', 's', 'v', 'g'] &&
    (cs.take (cs.length - 4)).all isSafeNameChar

/-- Model of `isSafeEmblemFilename` from helpers.js: non-strings are rejected,
the filename must equal its own `path.basename`, and it must match
`SAFE_EMBLEM_PATTERN`. -/
def isSafeEmblemFilename (filename : JsValue) : Bool :=
  match filename with
  | .str s => (posixBasename s.data == s.data) && matchesSafeEmblem s.data
  | _ => false

/-- Two consecutive dots somewhere in the character list. -/
def containsDoubleDot : List Char → Bool
  | c1 :: c2 :: rest => (c1 == '.' && c2 == '.') || containsDoubleDot (c2 :: rest)
  | _ => false

theorem matchesSafeEmblem_iff (cs : List Char) :
    matchesSafeEmblem cs = true ↔
      ∃ stem, cs = stem ++ ['.', 's', 'v', 'g'] ∧ stem ≠ [] ∧ stem.all isSafeNameChar = true := by
  constructor
  · intro h
    simp only [matchesSafeEmblem, Bool.and_eq_true, decide_eq_true_eq, beq_iff_eq] at h
    obtain ⟨⟨hlen, hdrop⟩, hall⟩ := h
    refine ⟨cs.take (cs.length - 4), ?_, ?_, hall⟩
    · conv_lhs => rw [← List.take_append_drop (cs.length - 4) cs]
      rw [hdrop]
    · have : (cs.take (cs.length - 4)).length = cs.length - 4 := by
        rw [List.length_take]
        omega
      intro hnil
      rw [hnil] at this
      simp at this
      omega
  · rintro ⟨stem, rfl, hne, hall⟩
    have hstem : 1 ≤ stem.length := by
      cases stem with
      | nil => exact absurd rfl hne
      | cons a t => simp
    have hlen : (stem ++ ['.', 's', 'v', 'g']).length = stem.length + 4 := by simp
    have h44 : stem.length + 4 - 4 = stem.length := by omega
    simp only [matchesSafeEmblem, hlen, h44, List.drop_left, List.take_left,
      Bool.and_eq_true, decide_eq_true_eq, beq_iff_eq]
    exact ⟨⟨by omega, by trivial⟩, hall⟩

theorem posixBasename_no_slash (cs : List Char) (c : Char)
    (h : c ∈ posixBasename cs) : c ≠ '/' := by
  simp only [posixBasename, List.mem_reverse] at h
  have hp := List.mem_takeWhile_imp h
  simpa using hp

theorem safeChar_ne_dot (c : Char) (h : isSafeNameChar c = true) : c ≠ '.' := by
  intro he
  rw [he] at h
  exact absurd h (by decide)

theorem safe_stem_no_double_dot (stem : List Char) (hall : stem.all isSafeNameChar = true) :
    containsDoubleDot (stem ++ ['.', 's', 'v', 'g']) = false := by
  induction stem with
  | nil => decide
  | cons a t ih =>
    have ha : isSafeNameChar a = true := by
      have := List.all_eq_true.mp hall a (by simp)
      simpa using this
    have ht : t.all isSafeNameChar = true := by
      rw [List.all_eq_true]
      intro x hx
      exact List.all_eq_true.mp hall x (by simp [hx])
    have hadot : (a == '.') = false := by
      have := safeChar_ne_dot a ha
      simpa using this
    cases t with
    | nil =>
      simp only [List.nil_append, List.cons_append, containsDoubleDot, hadot,
        Bool.false_and, Bool.false_or]
      decide
    | cons b t2 =>
      have hstep : containsDoubleDot ((a :: b :: t2) ++ ['.', 's', 'v', 'g'])
          = ((a == '.' && b == '.') || containsDoubleDot ((b :: t2) ++ ['.', 's', 'v', 'g'])) :=
        rfl
      rw [hstep, ih ht, hadot]
      simp

/-! ## Scan lemmas for the jobVotes validator -/

theorem findDuplicate_none_inv (l : List JobVoteEntry) :
    ∀ seen, findDuplicate seen l = none →
      ∀ p, (p ∈ seen → l.countP (fun e => e.votes.contains p) = 0) ∧
        l.countP (fun e => e.votes.contains p) ≤ 1 := by
  induction l with
  | nil =>
    intro seen _ p
    simp
  | cons e rest ih =>
    intro seen h p
    rw [show findDuplicate seen (e :: rest)
        = (match e.votes.find? (fun p => seen.contains p) with
           | some p => some p
           | none => findDuplicate (seen ++ e.votes) rest) from rfl] at h
    cases hfind : e.votes.find? (fun q => seen.contains q) with
    | some q => rw [hfind] at h; exact absurd h (by simp)
    | none =>
      rw [hfind] at h
      simp only at h
      have hnone : ∀ v ∈ e.votes, seen.contains v = false := by
        intro v hv
        have := List.find?_eq_none.mp hfind v hv
        simpa using this
      have ihp := ih (seen ++ e.votes) h p
      constructor
      · intro hpseen
        have hev : e.votes.contains p = false := by
          by_cases hc : e.votes.contains p = true
          · have hpv : p ∈ e.votes := by
              rw [List.contains_iff_exists_mem_beq] at hc
              obtain ⟨a, ha, hab⟩ := hc
              rw [beq_iff_eq] at hab
              rwa [hab]
            have := hnone p hpv
            rw [show seen.contains p = true from by
              rw [List.contains_iff_exists_mem_beq]
              exact ⟨p, hpseen, by simp⟩] at this
            exact absurd this (by simp)
          · simpa using hc
        have h0 := (ihp.1 (by simp [hpseen]))
        rw [List.countP_cons, hev]
        simpa using h0
      · by_cases hev : e.votes.contains p = true
        · have hpv : p ∈ e.votes := by
            rw [List.contains_iff_exists_mem_beq] at hev
            obtain ⟨a, ha, hab⟩ := hev
            rw [beq_iff_eq] at hab
            rwa [hab]
          have h0 := ihp.1 (by simp [hpv])
          rw [List.countP_cons, hev]
          simpa using h0
        · have hev' : e.votes.contains p = false := by simpa using hev
          rw [List.countP_cons, hev']
          simpa using ihp.2

theorem findDuplicate_some_inv (l : List JobVoteEntry) :
    ∀ seen q, findDuplicate seen l = some q →
      (q ∈ seen ∧ ∃ e ∈ l, q ∈ e.votes) ∨
        2 ≤ l.countP (fun e => e.votes.contains q) := by
  induction l with
  | nil => intro seen q h; exact absurd h (by simp [findDuplicate])
  | cons e rest ih =>
    intro seen q h
    rw [show findDuplicate seen (e :: rest)
        = (match e.votes.find? (fun p => seen.contains p) with
           | some p => some p
           | none => findDuplicate (seen ++ e.votes) rest) from rfl] at h
    cases hfind : e.votes.find? (fun p => seen.contains p) with
    | some p =>
      rw [hfind] at h
      simp only [Option.some_inj] at h
      have hq1 : p ∈ e.votes := List.mem_of_find?_eq_some hfind
      have hq2 : seen.contains p = true := by
        have := List.find?_some hfind
        simpa using this
      have hq3 : p ∈ seen := by
        rw [List.contains_iff_exists_mem_beq] at hq2
        obtain ⟨a, ha, hab⟩ := hq2
        rw [beq_iff_eq] at hab
        rwa [hab]
      subst h
      exact Or.inl ⟨hq3, e, by simp, hq1⟩
    | none =>
      rw [hfind] at h
      simp only at h
      rcases ih (seen ++ e.votes) q h with ⟨hqm, e', he', hqv⟩ | hcount
      · rcases List.mem_append.mp hqm with hqs | hqe
        · exact Or.inl ⟨hqs, e', by simp [he'], hqv⟩
        · refine Or.inr ?_
          rw [List.countP_cons]
          have hpos : 0 < rest.countP (fun e => e.votes.contains q) := by
            rw [List.countP_pos_iff]
            refine ⟨e', he', ?_⟩
            rw [List.contains_iff_exists_mem_beq]
            exact ⟨q, hqv, by simp⟩
          have hce : (e.votes.contains q) = true := by
            rw [List.contains_iff_exists_mem_beq]
            exact ⟨q, hqe, by simp⟩
          rw [hce, if_pos rfl]
          omega
      · refine Or.inr ?_
        rw [List.countP_cons]
        omega

/-- A job-votes entry whose referenced job is either missing from the context
or not in state "Active". -/
def jobOffense (jobs : List JobRec) (e : JobVoteEntry) : Prop :=
  ∀ j, findJob jobs e.jobId = some j → j.state ≠ "Active"

theorem checkJobsContext_none (jobs : List JobRec) (l : List JobVoteEntry)
    (h : checkJobsContext jobs l = none) :
    ∀ e ∈ l, ∃ j, findJob jobs e.jobId = some j ∧ j.state = "Active" := by
  induction l with
  | nil => intro e he; simp at he
  | cons e0 rest ih =>
    rw [show checkJobsContext jobs (e0 :: rest)
        = (match findJob jobs e0.jobId with
           | none => some (jobNotFoundMsg e0.jobId)
           | some j =>
             if j.state == "Active" then checkJobsContext jobs rest
             else some (jobNotActiveMsg e0.jobId j.state)) from rfl] at h
    cases hfind : findJob jobs e0.jobId with
    | none => rw [hfind] at h; exact absurd h (by simp)
    | some j =>
      rw [hfind] at h
      simp only at h
      by_cases hact : j.state == "Active"
      · rw [if_pos hact] at h
        intro e he
        rcases List.mem_cons.mp he with rfl | he'
        · exact ⟨j, hfind, by simpa using hact⟩
        · exact ih h e he'
      · rw [if_neg hact] at h
        exact absurd h (by simp)

theorem checkJobsContext_some (jobs : List JobRec) (l : List JobVoteEntry)
    (m : String) (h : checkJobsContext jobs l = some m) :
    ∃ e ∈ l, (findJob jobs e.jobId = none ∧ m = jobNotFoundMsg e.jobId) ∨
      ∃ j, findJob jobs e.jobId = some j ∧ j.state ≠ "Active"
        ∧ m = jobNotActiveMsg e.jobId j.state := by
  induction l with
  | nil => exact absurd h (by simp [checkJobsContext])
  | cons e0 rest ih =>
    rw [show checkJobsContext jobs (e0 :: rest)
        = (match findJob jobs e0.jobId with
           | none => some (jobNotFoundMsg e0.jobId)
           | some j =>
             if j.state == "Active" then checkJobsContext jobs rest
             else some (jobNotActiveMsg e0.jobId j.state)) from rfl] at h
    cases hfind : findJob jobs e0.jobId with
    | none =>
      rw [hfind] at h
      simp only [Option.some_inj] at h
      exact ⟨e0, by simp, Or.inl ⟨hfind, h.symm⟩⟩
    | some j =>
      rw [hfind] at h
      simp only at h
      by_cases hact : j.state == "Active"
      · rw [if_pos hact] at h
        obtain ⟨e, he, hcase⟩ := ih h
        exact ⟨e, by simp [he], hcase⟩
      · rw [if_neg hact] at h
        simp only [Option.some_inj] at h
        refine ⟨e0, by simp, Or.inr ⟨j, hfind, ?_, h.symm⟩⟩
        simpa using hact

theorem checkJobsContext_offense (jobs : List JobRec) (l : List JobVoteEntry)
    (h : ∃ e ∈ l, jobOffense jobs e) : ∃ m, checkJobsContext jobs l = some m := by
  cases hres : checkJobsContext jobs l with
  | some m => exact ⟨m, rfl⟩
  | none =>
    obtain ⟨e, he, hoff⟩ := h
    obtain ⟨j, hfind, hact⟩ := checkJobsContext_none jobs l hres e he
    exact absurd hact (hoff j hfind)

/-! ## Claim theorems -/

/-- Claim C1: for every read where loading the backing JSON document fails
(file missing or malformed JSON), `readVotingPeriods` returns the default
empty shape `\x7bperiods: []\x7d` and does not raise an error (the function is
total and returns normally). -/
theorem claim_C1 (file : Option String)
    (h : file = none ∨ ∃ s, file = some s ∧ jsonParse s = none) :
    readVotingPeriods file = emptyVotingPeriods := by
  rcases h with rfl | ⟨s, rfl, hp⟩
  · rfl
  · simp [readVotingPeriods, hp]

theorem claim_C1_witness :
    (jsonParse "not valid json" = none ∧
      readVotingPeriods (some "not valid json") = emptyVotingPeriods) ∧
    readVotingPeriods none = emptyVotingPeriods :=
  ⟨⟨rfl, claim_C1 (some "not valid json") (Or.inr ⟨_, rfl, rfl⟩)⟩,
    claim_C1 none (Or.inl rfl)⟩

/-- Claim C2: for every voting-periods document, writing it via
`writeVotingPeriods` and then reading via `readVotingPeriods` yields a
structure equal to the document written (here proved up to full equality,
which subsumes deep equality with field order preserved). -/
theorem claim_C2 (doc : Json) : readVotingPeriods (writeVotingPeriods doc) = doc :=
  read_write_roundtrip doc

/-- Claim C9: for every backing file whose contents are syntactically valid
JSON, `readVotingPeriods` returns the parsed JSON value verbatim with no
shape validation (an array, a number or null is returned as-is), and the
default shape is produced only when parsing fails or the parsed document is
itself the default shape. -/
theorem claim_C9 :
    (∀ s v, jsonParse s = some v → readVotingPeriods (some s) = v) ∧
    (∀ s, readVotingPeriods (some s) = emptyVotingPeriods →
      jsonParse s = none ∨ jsonParse s = some emptyVotingPeriods) := by
  constructor
  · intro s v hp
    simp [readVotingPeriods, hp]
  · intro s hr
    cases hp : jsonParse s with
    | none => exact Or.inl rfl
    | some v =>
      simp only [readVotingPeriods, hp] at hr
      exact Or.inr (by rw [hr])

theorem claim_C9_witness :
    (jsonParse "[1, 2]" = some (Json.arr [Json.num 1, Json.num 2]) ∧
      readVotingPeriods (some "[1, 2]") = Json.arr [Json.num 1, Json.num 2]) ∧
    readVotingPeriods (some "37") = Json.num 37 :=
  ⟨⟨rfl, claim_C9.1 "[1, 2]" (Json.arr [Json.num 1, Json.num 2]) rfl⟩,
    claim_C9.1 "37" (Json.num 37) rfl⟩

/-- Claim C3: for every jobVotes array in which some pilot identifier appears
in the votes lists of two or more entries, `validateJobVotes` (called without
a jobs context, as the cross-entry invariant check is) returns invalid with a
message naming the duplicate pilot; the scan follows the array's insertion
order, and the pilot named is the first duplicate encountered by that scan
(`findDuplicate`), which is itself a pilot appearing in two or more
entries. -/
theorem claim_C3 (jobVotes : List JobVoteEntry)
    (h : ∃ p, 2 ≤ jobVotes.countP (fun e => e.votes.contains p)) :
    ∃ q, findDuplicate [] jobVotes = some q ∧
      validateJobVotes jobVotes none = ⟨false, some (duplicateVoteMsg q)⟩ ∧
      2 ≤ jobVotes.countP (fun e => e.votes.contains q) := by
  obtain ⟨p, hp⟩ := h
  cases hd : findDuplicate [] jobVotes with
  | none =>
    have := (findDuplicate_none_inv jobVotes [] hd p).2
    omega
  | some q =>
    refine ⟨q, rfl, ?_, ?_⟩
    · simp [validateJobVotes, dupCheckResult, hd]
    · rcases findDuplicate_some_inv jobVotes [] q hd with ⟨hq, _⟩ | hc
      · simp at hq
      · exact hc

/-- Example jobVotes array from the repository tests: pilot-1 appears in two
entries. -/
def duplicateVotesExample : List JobVoteEntry :=
  [⟨"job-uuid-1", ["pilot-1", "pilot-2"]⟩, ⟨"job-uuid-2", ["pilot-1"]⟩]

theorem claim_C3_witness :
    (∃ p, 2 ≤ duplicateVotesExample.countP (fun e => e.votes.contains p)) ∧
    ∃ q, findDuplicate [] duplicateVotesExample = some q ∧
      validateJobVotes duplicateVotesExample none = ⟨false, some (duplicateVoteMsg q)⟩ ∧
      2 ≤ duplicateVotesExample.countP (fun e => e.votes.contains q) :=
  ⟨⟨"pilot-1", by decide⟩, claim_C3 duplicateVotesExample ⟨"pilot-1", by decide⟩⟩

/-- Claim C4: `validateVotingPeriodData` is valid exactly when the three
sub-checks (state, endTime, jobVotes) all pass; the checks run in the fixed
order state, endTime, jobVotes, and the first failing check's message is the
one reported (short-circuit, not an aggregation). -/
theorem claim_C4 (p : Period) :
    ((validateVotingPeriodData p).valid = true ↔
      validateVotingPeriodState p.state = true ∧ validateEndTime p.endTime = true ∧
        (validateJobVotes p.jobVotes none).valid = true) ∧
    (validateVotingPeriodState p.state = false →
      validateVotingPeriodData p = ⟨false, some invalidStateMsg⟩) ∧
    (validateVotingPeriodState p.state = true → validateEndTime p.endTime = false →
      validateVotingPeriodData p = ⟨false, some invalidEndTimeMsg⟩) ∧
    (validateVotingPeriodState p.state = true → validateEndTime p.endTime = true →
      validateVotingPeriodData p = validateJobVotes p.jobVotes none) := by
  by_cases h1 : validateVotingPeriodState p.state = true
  · by_cases h2 : validateEndTime p.endTime = true
    · simp [validateVotingPeriodData, h1, h2]
    · have h2' : validateEndTime p.endTime = false := by simpa using h2
      simp [validateVotingPeriodData, h1, h2']
  · have h1' : validateVotingPeriodState p.state = false := by simpa using h1
    simp [validateVotingPeriodData, h1']

/-- Example period from the repository tests with an invalid state. -/
def invalidStatePeriodExample : Period :=
  ⟨"p1", JsValue.str "InvalidState", [⟨"job-uuid-1", ["pilot-1"]⟩],
    JsValue.str "2025-12-31T23:59:59Z"⟩

/-- Example valid period from the repository tests. -/
def validPeriodExample : Period :=
  ⟨"p0", JsValue.str "Ongoing",
    [⟨"job-uuid-1", ["pilot-1", "pilot-2"]⟩, ⟨"job-uuid-2", ["pilot-3"]⟩],
    JsValue.str "2025-12-31T23:59:59Z"⟩

theorem claim_C4_witness :
    validateVotingPeriodData invalidStatePeriodExample = ⟨false, some invalidStateMsg⟩ ∧
    (validateVotingPeriodData validPeriodExample).valid = true :=
  ⟨(claim_C4 invalidStatePeriodExample).2.1 (by decide),
    (claim_C4 validPeriodExample).1.mpr ⟨by decide, by decide, by decide⟩⟩

/-- Claim C5: when `validateJobVotes` is called with a jobs context, every
referenced job must exist in the context and be in state "Active" (a valid
result guarantees this); a missing or non-Active job yields an invalid result
whose message identifies the job and the reason; and when the context is
omitted, both job checks are skipped entirely (the result is exactly the pure
uniqueness check). -/
theorem claim_C5 :
    (∀ jv ctx, (validateJobVotes jv (some ctx)).valid = true →
      ∀ e ∈ jv, ∃ j, findJob ctx e.jobId = some j ∧ j.state = "Active") ∧
    (∀ jv ctx, (∃ e ∈ jv, jobOffense ctx e) →
      (validateJobVotes jv (some ctx)).valid = false ∧
      ∃ e ∈ jv, (findJob ctx e.jobId = none ∧
          (validateJobVotes jv (some ctx)).message = some (jobNotFoundMsg e.jobId)) ∨
        ∃ j, findJob ctx e.jobId = some j ∧ j.state ≠ "Active" ∧
          (validateJobVotes jv (some ctx)).message = some (jobNotActiveMsg e.jobId j.state)) ∧
    (∀ jv, validateJobVotes jv none = dupCheckResult jv) ∧
    (∀ jv ctx, checkJobsContext ctx jv = none →
      validateJobVotes jv (some ctx) = dupCheckResult jv) := by
  refine ⟨?_, ?_, ?_, ?_⟩
  · intro jv ctx hvalid e he
    cases hc : checkJobsContext ctx jv with
    | some m =>
      rw [show validateJobVotes jv (some ctx)
          = (match checkJobsContext ctx jv with
             | some msg => ⟨false, some msg⟩
             | none => dupCheckResult jv) from rfl, hc] at hvalid
      exact absurd hvalid (by simp)
    | none => exact checkJobsContext_none ctx jv hc e he
  · intro jv ctx hoff
    obtain ⟨m, hm⟩ := checkJobsContext_offense ctx jv hoff
    have hres : validateJobVotes jv (some ctx) = ⟨false, some m⟩ := by
      rw [show validateJobVotes jv (some ctx)
          = (match checkJobsContext ctx jv with
             | some msg => ⟨false, some msg⟩
             | none => dupCheckResult jv) from rfl, hm]
    obtain ⟨e, he, hcase⟩ := checkJobsContext_some ctx jv m hm
    refine ⟨by simp [hres], e, he, ?_⟩
    rcases hcase with ⟨hf, rfl⟩ | ⟨j, hf, hact, rfl⟩
    · exact Or.inl ⟨hf, by simp [hres]⟩
    · exact Or.inr ⟨j, hf, hact, by simp [hres]⟩
  · intro jv
    rfl
  · intro jv ctx h
    rw [show validateJobVotes jv (some ctx)
        = (match checkJobsContext ctx jv with
           | some msg => ⟨false, some msg⟩
           | none => dupCheckResult jv) from rfl, h]

/-- Example jobs context from the repository tests. -/
def mockJobsExample : List JobRec :=
  [⟨"job-1", "Active"⟩, ⟨"job-2", "Pending"⟩, ⟨"job-3", "Complete"⟩]

theorem claim_C5_witness :
    (validateJobVotes [⟨"job-2", ["pilot-1"]⟩] (some mockJobsExample)).valid = false :=
  (claim_C5.2.1 [⟨"job-2", ["pilot-1"]⟩] mockJobsExample
    ⟨⟨"job-2", ["pilot-1"]⟩, by simp, fun j hj => by
      have h2 : j = (⟨"job-2", "Pending"⟩ : JobRec) :=
        (Option.some.inj ((show findJob mockJobsExample "job-2"
          = some (⟨"job-2", "Pending"⟩ : JobRec) from rfl).symm.trans hj)).symm
      rw [h2]
      decide⟩).1

/-- Claim C6: `getOngoingVotingPeriod` returns the first entry in sequence
order whose state equals the string "Ongoing" and none (modelling null) when
no such entry exists; it is a pure total query that performs no validation of
the at-most-one-ongoing invariant (a list with several ongoing periods simply
yields the first). -/
theorem claim_C6 (periods : List Period) :
    (∀ p, isOngoing p = true ↔ p.state = JsValue.str "Ongoing") ∧
    (getOngoingVotingPeriod periods = none ↔ ∀ p ∈ periods, isOngoing p = false) ∧
    (∀ p, getOngoingVotingPeriod periods = some p →
      isOngoing p = true ∧ ∃ i, ∃ hi : i < periods.length, periods.get ⟨i, hi⟩ = p ∧
        ∀ j, ∀ hj : j < periods.length, j < i →
          isOngoing (periods.get ⟨j, hj⟩) = false) := by
  refine ⟨?_, ?_, ?_⟩
  · intro p
    cases hs : p.state <;> simp [isOngoing, hs]
  · rw [getOngoingVotingPeriod, List.find?_eq_none]
    constructor
    · intro h p hp
      simpa using h p hp
    · intro h p hp
      simp [h p hp]
  · intro p hp
    rw [getOngoingVotingPeriod, List.find?_eq_some_iff_getElem] at hp
    obtain ⟨hpt, i, hi, hget, hprev⟩ := hp
    refine ⟨hpt, i, hi, by simpa [List.get_eq_getElem] using hget, ?_⟩
    intro j hj hji
    have := hprev j hji
    simpa [List.get_eq_getElem] using this

/-- Example period list from the repository tests: the single Ongoing entry
sits between two Archived ones. -/
def periodsWithOngoingExample : List Period :=
  [⟨"1", JsValue.str "Archived", [], JsValue.null⟩,
   ⟨"2", JsValue.str "Ongoing", [], JsValue.null⟩,
   ⟨"3", JsValue.str "Archived", [], JsValue.null⟩]

theorem claim_C6_witness :
    isOngoing (⟨"2", JsValue.str "Ongoing", [], JsValue.null⟩ : Period) = true ∧
    ∃ i, ∃ hi : i < periodsWithOngoingExample.length,
      periodsWithOngoingExample.get ⟨i, hi⟩
        = (⟨"2", JsValue.str "Ongoing", [], JsValue.null⟩ : Period) ∧
      ∀ j, ∀ hj : j < periodsWithOngoingExample.length, j < i →
        isOngoing (periodsWithOngoingExample.get ⟨j, hj⟩) = false :=
  (claim_C6 periodsWithOngoingExample).2.2
    (⟨"2", JsValue.str "Ongoing", [], JsValue.null⟩ : Period) rfl

/-- Claim C7: `validateVotingPeriodState` returns true exactly when its
argument is the string "Ongoing" or the string "Archived", and false for
every other value (null, undefined or any wrong-typed value); it is a pure
total Boolean function, so it has no side effects and cannot throw. -/
theorem claim_C7 (v : JsValue) :
    validateVotingPeriodState v = true ↔
      v = JsValue.str "Ongoing" ∨ v = JsValue.str "Archived" := by
  cases v <;> simp [validateVotingPeriodState]

theorem claim_C7_witness :
    validateVotingPeriodState (JsValue.str "Ongoing") = true ∧
    validateVotingPeriodState (JsValue.str "Archived") = true ∧
    validateVotingPeriodState (JsValue.str "Invalid") = false ∧
    validateVotingPeriodState JsValue.null = false :=
  ⟨(claim_C7 (JsValue.str "Ongoing")).mpr (Or.inl rfl),
   (claim_C7 (JsValue.str "Archived")).mpr (Or.inr rfl),
   by have h := claim_C7 (JsValue.str "Invalid"); simpa using h,
   by have h := claim_C7 JsValue.null; simpa using h⟩

/-- Claim C8: `validateEndTime` returns true for null, false for every
non-string value, and for a string returns exactly what the (modelled) host
date parser decides; the spec's four sample evaluations hold. -/
theorem claim_C8 :
    validateEndTime JsValue.null = true ∧
    (∀ s, validateEndTime (JsValue.str s) = hostDateParses s) ∧
    (∀ n : Int, validateEndTime (JsValue.num n) = false) ∧
    (∀ b, validateEndTime (JsValue.bool b) = false) ∧
    validateEndTime JsValue.undef = false ∧
    validateEndTime JsValue.arrV = false ∧
    validateEndTime JsValue.objV = false ∧
    hostDateParses "2025-12-31T23:59:59Z" = true ∧
    hostDateParses "not a date" = false := by
  refine ⟨rfl, fun s => rfl, fun n => rfl, fun b => rfl, rfl, rfl, rfl, by decide, by decide⟩

theorem claim_C8_witness :
    validateEndTime (JsValue.num 12345) = false ∧
    validateEndTime (JsValue.str "2025-12-31T23:59:59Z") = true := by
  obtain ⟨h1, h2, h3, h4, h5, h6, h7, h8, h9⟩ := claim_C8
  exact ⟨h3 12345, by rw [h2]; exact h8⟩

/-- Claim C10: `isSafeEmblemFilename` returns true only when the input is a
string equal to its own path basename and matching the anchored pattern of
one or more characters from `[A-Za-z0-9_-]` followed by ".svg"; consequently
it returns false for every non-string, for every string containing a path
separator, for every string containing a ".." sequence, and for every string
whose stem (the part before the ".svg" suffix) contains a character outside
the safe class. -/
theorem claim_C10 :
    (∀ v, isSafeEmblemFilename v = true ↔
      ∃ s, v = JsValue.str s ∧ posixBasename s.data = s.data ∧
        matchesSafeEmblem s.data = true) ∧
    (∀ cs, matchesSafeEmblem cs = true ↔
      ∃ stem, cs = stem ++ ['.', 's', 'v', 'g'] ∧ stem ≠ [] ∧
        stem.all isSafeNameChar = true) ∧
    (∀ s : String, '/' ∈ s.data → isSafeEmblemFilename (JsValue.str s) = false) ∧
    (∀ s : String, containsDoubleDot s.data = true →
      isSafeEmblemFilename (JsValue.str s) = false) ∧
    (∀ s : String, ∀ stem, s.data = stem ++ ['.', 's', 'v', 'g'] →
      (∃ c ∈ stem, isSafeNameChar c = false) →
      isSafeEmblemFilename (JsValue.str s) = false) ∧
    (∀ v, (∀ s, v ≠ JsValue.str s) → isSafeEmblemFilename v = false) := by
  have hunfold : ∀ s : String, isSafeEmblemFilename (JsValue.str s)
      = ((posixBasename s.data == s.data) && matchesSafeEmblem s.data) := fun s => rfl
  refine ⟨?_, matchesSafeEmblem_iff, ?_, ?_, ?_, ?_⟩
  · intro v
    cases v with
    | str s =>
      rw [hunfold]
      simp only [Bool.and_eq_true, beq_iff_eq, JsValue.str.injEq]
      constructor
      · rintro ⟨hb, hm⟩
        exact ⟨s, rfl, hb, hm⟩
      · rintro ⟨s2, rfl, hb, hm⟩
        exact ⟨hb, hm⟩
    | undef => simp [isSafeEmblemFilename]
    | null => simp [isSafeEmblemFilename]
    | bool b => simp [isSafeEmblemFilename]
    | num n => simp [isSafeEmblemFilename]
    | arrV => simp [isSafeEmblemFilename]
    | objV => simp [isSafeEmblemFilename]
  · intro s hs
    by_contra hb
    rw [Bool.not_eq_false, hunfold, Bool.and_eq_true, beq_iff_eq] at hb
    obtain ⟨hbase, _⟩ := hb
    rw [← hbase] at hs
    exact absurd rfl (posixBasename_no_slash s.data '/' hs)
  · intro s hdd
    by_contra hb
    rw [Bool.not_eq_false, hunfold, Bool.and_eq_true, beq_iff_eq] at hb
    obtain ⟨_, hm⟩ := hb
    obtain ⟨stem, hsplit, _, hall⟩ := (matchesSafeEmblem_iff s.data).mp hm
    rw [hsplit, safe_stem_no_double_dot stem hall] at hdd
    exact absurd hdd (by simp)
  · intro s stem hsplit hbad
    by_contra hb
    rw [Bool.not_eq_false, hunfold, Bool.and_eq_true, beq_iff_eq] at hb
    obtain ⟨_, hm⟩ := hb
    obtain ⟨stem2, hsplit2, _, hall2⟩ := (matchesSafeEmblem_iff s.data).mp hm
    have hstems : stem = stem2 := List.append_cancel_right (hsplit.symm.trans hsplit2)
    obtain ⟨c, hc, hcbad⟩ := hbad
    have := List.all_eq_true.mp hall2 c (by rw [← hstems]; exact hc)
    rw [hcbad] at this
    exact absurd this (by simp)
  · intro v hv
    cases v with
    | str s => exact absurd rfl (hv s)
    | undef => rfl
    | null => rfl
    | bool b => rfl
    | num n => rfl
    | arrV => rfl
    | objV => rfl

theorem claim_C10_witness :
    isSafeEmblemFilename (JsValue.str "emblem_1.svg") = true ∧
    isSafeEmblemFilename (JsValue.str "../emblem.svg") = false ∧
    isSafeEmblemFilename (JsValue.str "sub/emblem.svg") = false ∧
    isSafeEmblemFilename (JsValue.num 5) = false :=
  ⟨(claim_C10.1 (JsValue.str "emblem_1.svg")).mpr
      ⟨"emblem_1.svg", rfl, by decide, by decide⟩,
    claim_C10.2.2.2.1 "../emblem.svg" (by decide),
    claim_C10.2.2.1 "sub/emblem.svg" (by decide),
    claim_C10.2.2.2.2.2 (JsValue.num 5) (fun s h => JsValue.noConfusion h)⟩
